import Mathlib

/-!
Shallow embedding of `src/lib/index.ts` of svelte-attach-gsap: the
animation store, the ordering resolver (`TimelineUtils`), the Sequencer
(`Timeline` with `rebuildTimeline`, `addAnimation` and its cleanup
closure), the timeline-bound chainable attach (`TimelineGSAP`), and the
standalone chainable attach (`ToGSAP` / `ChainableMethodFactory`).
JavaScript numbers that the claims concern are embedded as `Int`, the
`-Infinity` sentinel as `Option.none`, elements and property-map objects
as opaque `Nat` handles, and `Array.prototype.sort` (guaranteed stable by
ECMAScript) as an explicit stable insertion sort by the same comparator.
-/

namespace AttachGsap

/-- Tag for the four engine construction operations the adapter exposes
(`gsap.to`, `gsap.from`, `gsap.fromTo`, `gsap.set`). -/
inductive GsapMethod
  | to
  | from_
  | fromTo
  | set
deriving DecidableEq

/-- Values travelling through the untyped `args` lists of the source:
opaque property-map objects (identified by an index), strings, numbers,
and the `undefined` value. -/
inductive JSVal
  | obj (n : Nat)
  | str (s : String)
  | num (n : Int)
deriving DecidableEq

/-- Test mirroring `typeof v === 'string' || typeof v === 'number'`.
An absent (`undefined`) value is handled at the `Option` level. -/
def JSVal.isStrOrNum : JSVal → Bool
  | .str _ => true
  | .num _ => true
  | _ => false

/-- Test on the last element of an args list, mirroring
`typeof args[args.length - 1] === 'string' || ... === 'number'`; entries
of the list are optional values because chained timeline methods push a
possibly-`undefined` position into `args`. -/
def lastIsStrOrNum (args : List (Option JSVal)) : Bool :=
  match args.getLast? with
  | some (some v) => v.isStrOrNum
  | _ => false

/-- Descriptor stored by the Sequencer (`TweenData` in the source):
engine method, bound element (opaque handle), argument list, optional
explicit order, optional position, unique id. -/
structure TweenData where
  gsapMethod : GsapMethod
  element : Nat
  args : List (Option JSVal)
  order : Option Int
  position : Option JSVal
  id : Nat
deriving DecidableEq

/-- The animation store (`AnimationStore` in the source, instantiated at
`TweenData`): backing array plus the monotone id counter. -/
structure AnimationStore where
  store : List TweenData
  nextId : Nat
deriving DecidableEq

/-- Source `generateId`: returns `this.nextId++`, i.e. the current value,
post-incrementing the counter. -/
def AnimationStore.generateId (s : AnimationStore) : Nat × AnimationStore :=
  (s.nextId, { s with nextId := s.nextId + 1 })

/-- Source `addToStore`: push at the end of the backing array. -/
def AnimationStore.addToStore (s : AnimationStore) (item : TweenData) : AnimationStore :=
  { s with store := s.store ++ [item] }

/-- Source `removeFromStore`: `findIndex` followed by `splice` removes the
first element satisfying the predicate and returns `true`; when no element
matches it returns `false` and leaves the array unchanged. -/
def AnimationStore.removeFromStore (s : AnimationStore) (p : TweenData → Bool) :
    Bool × AnimationStore :=
  if s.store.any p then (true, { s with store := s.store.eraseP p })
  else (false, s)

/-- Source `clearStore`: `store.length = 0` empties the array and leaves
`nextId` untouched. -/
def AnimationStore.clearStore (s : AnimationStore) : AnimationStore :=
  { s with store := [] }

/-- Source `storeSize` getter. -/
def AnimationStore.storeSize (s : AnimationStore) : Nat :=
  s.store.length

/-- Source `TimelineUtils.calculateEffectiveOrder`; the second argument is
the maximum explicit order with `none` standing for the `-Infinity`
sentinel. -/
def calculateEffectiveOrder (item : TweenData) (maxExplicitOrder : Option Int) : Int :=
  match item.order with
  | some o => o
  | none =>
    let startingOrderForUnordered : Int :=
      match maxExplicitOrder with
      | none => 0
      | some m => m + 1
    startingOrderForUnordered + (item.id : Int)

/-- Call shapes of the position-or-options parameter of the timeline
builder methods: a bare (possibly absent) position value, or an options
object carrying optional `position` and `order` fields. -/
inductive PosOrOpts
  | value (v : Option JSVal)
  | options (position : Option JSVal) (order : Option Int)
deriving DecidableEq

/-- Source `TimelineUtils.parseTimelineOptions`: an object argument wins;
otherwise the bare value is the position and the trailing `order`
parameter is the order. -/
def parseTimelineOptions (positionOrOptions : PosOrOpts) (order : Option Int) :
    Option JSVal × Option Int :=
  match positionOrOptions with
  | .options p o => (p, o)
  | .value v => (v, order)

/-- One step of the `reduce` in `rebuildTimeline` computing the maximum
explicit order (`Math.max` over the defined `order` fields, starting from
`-Infinity`, which `none` stands for). -/
def moStep (acc : Option Int) (item : TweenData) : Option Int :=
  match item.order with
  | some o =>
    match acc with
    | none => some o
    | some m => some (max m o)
  | none => acc

/-- The `maxExplicitOrder` fold of `rebuildTimeline`. -/
def maxExplicitOrder (s : List TweenData) : Option Int :=
  s.foldl moStep none

/-- Insert `a` into `l` in front of the first element it compares
strictly below, passing over every element that compares less-or-equal;
with `stableSort` below this is the stable comparator sort that
ECMAScript guarantees for `Array.prototype.sort`. -/
def stableInsert {α : Type} (lt : α → α → Bool) (a : α) : List α → List α
  | [] => [a]
  | b :: t => if lt a b then a :: b :: t else b :: stableInsert lt a t

/-- Stable sort by the strict comparator `lt`, processing the list left
to right and inserting each element after all previously seen elements
that do not compare strictly above it. -/
def stableSort {α : Type} (lt : α → α → Bool) (l : List α) : List α :=
  l.foldl (fun acc a => stableInsert lt a acc) []

/-- Tween constructed during rebuild by `gsapMethod(element, ...args)`. -/
structure TweenHandle where
  gsapMethod : GsapMethod
  element : Nat
  args : List (Option JSVal)
deriving DecidableEq

/-- Child of the underlying engine timeline: the constructed tween plus
the position argument passed to `timeline.add` (`none` means the add
without a position, i.e. the natural append point). -/
structure ChildEntry where
  tween : TweenHandle
  position : Option JSVal
deriving DecidableEq

/-- The `[...store].sort((a, b) => orderA - orderB)` snapshot of
`rebuildTimeline`, with both comparator operands computed through
`calculateEffectiveOrder` against the store's maximum explicit order. -/
def sortedStore (s : List TweenData) : List TweenData :=
  stableSort
    (fun a b =>
      decide (calculateEffectiveOrder a (maxExplicitOrder s) <
        calculateEffectiveOrder b (maxExplicitOrder s)))
    s

/-- Loop body of `rebuildTimeline`: construct the tween and choose the
`timeline.add` call, positional when
`position !== undefined && position !== ''` and plain otherwise. -/
def mkChildEntry (d : TweenData) : ChildEntry :=
  { tween := { gsapMethod := d.gsapMethod, element := d.element, args := d.args }
    position :=
      if d.position ≠ none ∧ d.position ≠ some (JSVal.str "") then d.position else none }

/-- Source `Timeline.rebuildTimeline` as a function from the store
snapshot to the rebuilt child list (the underlying timeline is cleared
first, so its children afterwards are exactly this list). -/
def rebuildTimeline (s : List TweenData) : List ChildEntry :=
  (sortedStore s).map mkChildEntry

/-- State of a `Timeline` (the Sequencer): its animation store and the
children of the underlying engine timeline. -/
structure TimelineState where
  animationStore : AnimationStore
  children : List ChildEntry
deriving DecidableEq

/-- Store list of a timeline state. -/
@[reducible] def TimelineState.store (st : TimelineState) : List TweenData :=
  st.animationStore.store

/-- A freshly constructed `Timeline` (or one on which `clear()` just
ran): empty store, empty child list; `n` generalises the id counter. -/
def freshTimeline (n : Nat) : TimelineState :=
  { animationStore := { store := [], nextId := n }, children := [] }

/-- Source `Timeline.addAnimation`: generate an id, append the
descriptor, rebuild; returns the id (which identifies the returned
cleanup closure) together with the new state. -/
def Timeline.addAnimation (st : TimelineState) (gsapMethod : GsapMethod) (element : Nat)
    (args : List (Option JSVal)) (order : Option Int) (position : Option JSVal) :
    Nat × TimelineState :=
  let g := st.animationStore.generateId
  let s2 := g.2.addToStore
    { gsapMethod := gsapMethod, element := element, args := args,
      order := order, position := position, id := g.1 }
  (g.1, { animationStore := s2, children := rebuildTimeline s2.store })

/-- The cleanup closure returned by `addAnimation`: remove the descriptor
matching the captured id, rebuild; the Boolean is the `removeFromStore`
result the closure observes. -/
def Timeline.detach (st : TimelineState) (i : Nat) : Bool × TimelineState :=
  ((st.animationStore.removeFromStore (fun item => item.id == i)).1,
    { animationStore := (st.animationStore.removeFromStore (fun item => item.id == i)).2,
      children :=
        rebuildTimeline (st.animationStore.removeFromStore (fun item => item.id == i)).2.store })

/-- Parameters of one `addAnimation` call. -/
structure AddSpec where
  gsapMethod : GsapMethod
  element : Nat
  args : List (Option JSVal)
  order : Option Int
  position : Option JSVal
deriving DecidableEq

/-- Run a sequence of `addAnimation` calls, collecting the returned ids
(one per returned cleanup closure). -/
def addAll : TimelineState → List AddSpec → List Nat × TimelineState
  | st, [] => ([], st)
  | st, sp :: rest =>
    let r := Timeline.addAnimation st sp.gsapMethod sp.element sp.args sp.order sp.position
    let rr := addAll r.2 rest
    (r.1 :: rr.1, rr.2)

/-- Invoke the cleanup closures for the given ids, in the given order. -/
def detachAll : TimelineState → List Nat → TimelineState
  | st, [] => st
  | st, i :: rest => detachAll (Timeline.detach st i).2 rest

/-- Builder entry (`Animation` in the source): method reference, args,
optional order (the field is only present when the parsed order was
defined). -/
structure Animation where
  method : GsapMethod
  args : List (Option JSVal)
  order : Option Int
deriving DecidableEq

/-- Accumulated state of the attach function built by
`TimelineGSAP.createTimelineAttach`: the initiating method name and base
args, the position parsed from the initiating call, and the accumulated
animation entries. -/
structure ChainState where
  baseMethodName : GsapMethod
  baseArgs : List (Option JSVal)
  position : Option JSVal
  animations : List Animation
deriving DecidableEq

/-- Source `TimelineGSAP.createTimelineAttach` up to its attach closure:
parse the options, seed `animations` with the initiating entry whose args
are exactly `baseArgs` (the initiating position is handled separately and
kept out of `args`). -/
def createTimelineAttach (methodName : GsapMethod) (baseArgs : List (Option JSVal))
    (positionOrOptions : PosOrOpts) (order : Option Int) : ChainState :=
  let parsed := parseTimelineOptions positionOrOptions order
  { baseMethodName := methodName, baseArgs := baseArgs, position := parsed.1,
    animations := [{ method := methodName, args := baseArgs, order := parsed.2 }] }

/-- Chained timeline builder method
(`ChainableMethodFactory.addTimelineMethods`): parse the options and push
an entry whose args are `[...mainArgs, position]` — the parsed position is
appended to the args array even when it is `undefined` — with the parsed
order. -/
def ChainState.chain (cs : ChainState) (methodName : GsapMethod)
    (mainArgs : List (Option JSVal)) (positionOrOptions : PosOrOpts)
    (order : Option Int) : ChainState :=
  let parsed := parseTimelineOptions positionOrOptions order
  { cs with animations := cs.animations ++
      [{ method := methodName, args := mainArgs ++ [parsed.1], order := parsed.2 }] }

/-- The `cleanArgs` / `animPosition` resolution performed for one entry
inside the attach closure of `createTimelineAttach`. -/
def resolveEntry (cs : ChainState) (a : Animation) :
    List (Option JSVal) × Option JSVal :=
  if cs.animations.length = 1 ∧ cs.position ≠ none ∧ cs.position ≠ some (JSVal.str "") then
    (if cs.baseArgs.length < a.args.length then a.args.take cs.baseArgs.length else a.args,
      cs.position)
  else
    if cs.baseArgs.length < a.args.length ∧ lastIsStrOrNum a.args = true then
      if cs.baseMethodName ≠ GsapMethod.set then
        (a.args.dropLast, a.args.getLast?.join)
      else (a.args, none)
    else (a.args, none)

/-- Attach closure of `createTimelineAttach`: resolve every entry and call
`timeline.addAnimation` with the bound element, collecting the returned
ids (one per cleanup closure put into `cleanupFunctions`). -/
def attachTimelineChain (cs : ChainState) (element : Nat) (st : TimelineState) :
    List Nat × TimelineState :=
  cs.animations.foldl
    (fun acc a =>
      let r := resolveEntry cs a
      let r2 := Timeline.addAnimation acc.2 a.method element r.1 a.order r.2
      (acc.1 ++ [r2.1], r2.2))
    ([], st)

/-- Engine call `method(element, ...args)` performed by the standalone
attach closure. -/
structure EngineCall where
  method : GsapMethod
  element : Nat
  args : List (Option JSVal)
deriving DecidableEq

/-- Source `ChainableMethodFactory.createMethod` without a param handler
(the standalone `to`/`from`/`fromTo`/`set`): push `{method, args}` with
the args recorded verbatim and no `order` field. -/
def standaloneChainCall (anims : List Animation) (methodName : GsapMethod)
    (args : List (Option JSVal)) : List Animation :=
  anims ++ [{ method := methodName, args := args, order := none }]

/-- Initial `animations` array of `ToGSAP.createChainableAttach`. -/
def createChainableAttach (methodName : GsapMethod) (args : List (Option JSVal)) :
    List Animation :=
  [{ method := methodName, args := args, order := none }]

/-- Standalone attach closure:
`animations.map(({method, args}) => method(element, ...args))`. -/
def standaloneAttach (anims : List Animation) (element : Nat) : List EngineCall :=
  anims.map (fun a => { method := a.method, element := element, args := a.args })

/-- Operations a client can perform against one `AnimationStore`. -/
inductive StoreOp
  | gen
  | add (item : TweenData)
  | removeById (i : Nat)
  | clear
deriving DecidableEq

/-- Run a list of store operations, collecting every value returned by
`generateId` in call order. -/
def runStoreOps : AnimationStore → List StoreOp → AnimationStore × List Nat
  | s, [] => (s, [])
  | s, StoreOp.gen :: rest =>
    ((runStoreOps s.generateId.2 rest).1,
      s.generateId.1 :: (runStoreOps s.generateId.2 rest).2)
  | s, StoreOp.add item :: rest => runStoreOps (s.addToStore item) rest
  | s, StoreOp.removeById i :: rest =>
    runStoreOps (s.removeFromStore (fun d => d.id == i)).2 rest
  | s, StoreOp.clear :: rest => runStoreOps s.clearStore rest

/-- Number of `generateId` calls in an operation list. -/
def countGen : List StoreOp → Nat
  | [] => 0
  | StoreOp.gen :: rest => countGen rest + 1
  | _ :: rest => countGen rest

/-- The store an `AnimationStore` field initialises to: empty backing
array, counter at `0`. -/
def initialAnimationStore : AnimationStore :=
  { store := [], nextId := 0 }

/-- Effective order of a descriptor relative to a store snapshot. -/
def effectiveOrderIn (s : List TweenData) (d : TweenData) : Int :=
  calculateEffectiveOrder d (maxExplicitOrder s)

/-- The spec's ordering on descriptors of the store `s`: strictly
ascending effective order, ties broken by strictly ascending id. -/
def specLex (s : List TweenData) (a b : TweenData) : Prop :=
  effectiveOrderIn s a < effectiveOrderIn s b ∨
    (effectiveOrderIn s a = effectiveOrderIn s b ∧ a.id < b.id)

/-- A list realises the spec's claimed child order for the store `s`: it
is a permutation of `s` that is pairwise increasing in (effective order,
id). -/
def specOrdered (s l : List TweenData) : Prop :=
  l.Perm s ∧ l.Pairwise (specLex s)

/-- The spec invariant on a Sequencer state: the underlying timeline's
children are the image of the sorted store snapshot, and that snapshot is
the store arranged in the spec's order. -/
def childOrderMatchesSpec (st : TimelineState) : Prop :=
  st.children = (sortedStore st.store).map mkChildEntry ∧
    specOrdered st.store (sortedStore st.store)

/-- Well-formedness the Sequencer maintains: store ids strictly increase
left to right and stay below the id counter. -/
def WF (st : TimelineState) : Prop :=
  st.store.Pairwise (fun a b => a.id < b.id) ∧
    ∀ d ∈ st.store, d.id < st.animationStore.nextId

/-- State coherence: the recorded children are the rebuild of the current
store (every mutation re-establishes this; a fresh timeline has it
vacuously). -/
def Coherent (st : TimelineState) : Prop :=
  st.children = rebuildTimeline st.store

/-- Insertion position as the spec words it: the stored position when it
is present and not the empty string, otherwise the natural append point
(the empty string behaves like an absent position). -/
def specifiedInsertPosition (p : Option JSVal) : Option JSVal :=
  match p with
  | none => none
  | some v => if v = JSVal.str "" then none else some v

/-! ### Lemmas about the stable sort -/

theorem stableInsert_perm {α : Type} (lt : α → α → Bool) (a : α) (l : List α) :
    (stableInsert lt a l).Perm (a :: l) := by
  induction l with
  | nil => simp [stableInsert]
  | cons b t ih =>
    by_cases h : lt a b = true
    · simp [stableInsert, h]
    · simp only [stableInsert, if_neg h]
      exact (ih.cons b).trans (List.Perm.swap a b t)

theorem mem_stableInsert {α : Type} (lt : α → α → Bool) (a x : α) (l : List α) :
    x ∈ stableInsert lt a l ↔ x = a ∨ x ∈ l := by
  rw [(stableInsert_perm lt a l).mem_iff, List.mem_cons]

theorem stableSort_foldl_perm {α : Type} (lt : α → α → Bool) :
    ∀ (l acc : List α),
      (l.foldl (fun acc a => stableInsert lt a acc) acc).Perm (acc ++ l) := by
  intro l
  induction l with
  | nil => intro acc; simp
  | cons a t ih =>
    intro acc
    have h1 := ih (stableInsert lt a acc)
    have h2 : (stableInsert lt a acc ++ t).Perm (acc ++ a :: t) := by
      have h3 := (stableInsert_perm lt a acc).append_right t
      exact h3.trans List.perm_middle.symm
    exact (List.foldl_cons .. ▸ h1).trans h2

theorem stableSort_perm {α : Type} (lt : α → α → Bool) (l : List α) :
    (stableSort lt l).Perm l := by
  simpa using stableSort_foldl_perm lt l []

/-- Strict lexicographic order by an integer key and then by descriptor
id; the order in which a stable sort by the key lists an id-sorted
input. -/
def keyLex (key : TweenData → Int) (a b : TweenData) : Prop :=
  key a < key b ∨ (key a = key b ∧ a.id < b.id)

theorem stableInsert_pairwise (key : TweenData → Int) (a : TweenData)
    (l : List TweenData) (hl : l.Pairwise (keyLex key))
    (hid : ∀ b ∈ l, b.id < a.id) :
    (stableInsert (fun x y => decide (key x < key y)) a l).Pairwise (keyLex key) := by
  induction l with
  | nil => simp [stableInsert]
  | cons b t ih =>
    rcases List.pairwise_cons.mp hl with ⟨hb, ht⟩
    by_cases h : key a < key b
    · rw [stableInsert, if_pos (by simpa using h)]
      refine List.pairwise_cons.mpr ⟨?_, hl⟩
      intro c hc
      rcases List.mem_cons.mp hc with rfl | hct
      · exact Or.inl h
      · rcases hb c hct with h2 | h2
        · exact Or.inl (lt_trans h h2)
        · exact Or.inl (lt_of_lt_of_le h (le_of_eq h2.1))
    · rw [stableInsert, if_neg (by simpa using h)]
      have hid2 : ∀ c ∈ t, c.id < a.id := fun c hc => hid c (List.mem_cons_of_mem b hc)
      refine List.pairwise_cons.mpr ⟨?_, ih ht hid2⟩
      intro c hc
      rcases (mem_stableInsert _ a c t).mp hc with rfl | hct
      · rcases lt_or_eq_of_le (not_lt.mp h) with h2 | h2
        · exact Or.inl h2
        · exact Or.inr ⟨h2, hid b (List.mem_cons_self b t)⟩
      · exact hb c hct

theorem stableSort_foldl_pairwise (key : TweenData → Int) :
    ∀ (l acc : List TweenData), acc.Pairwise (keyLex key) →
      (∀ b ∈ acc, ∀ x ∈ l, b.id < x.id) →
      l.Pairwise (fun x y => x.id < y.id) →
      (l.foldl (fun acc a => stableInsert (fun x y => decide (key x < key y)) a acc)
        acc).Pairwise (keyLex key) := by
  intro l
  induction l with
  | nil => intro acc hacc _ _; simpa using hacc
  | cons a t ih =>
    intro acc hacc hcross hl
    rcases List.pairwise_cons.mp hl with ⟨ha, ht⟩
    rw [List.foldl_cons]
    refine ih (stableInsert _ a acc) ?_ ?_ ht
    · exact stableInsert_pairwise key a acc hacc
        (fun b hb => hcross b hb a (List.mem_cons_self a t))
    · intro b hb x hx
      rcases (mem_stableInsert _ a b acc).mp hb with rfl | hbacc
      · exact ha x hx
      · exact hcross b hbacc x (List.mem_cons_of_mem a hx)

theorem stableSort_pairwise (key : TweenData → Int) (l : List TweenData)
    (hl : l.Pairwise (fun x y => x.id < y.id)) :
    (stableSort (fun x y => decide (key x < key y)) l).Pairwise (keyLex key) := by
  exact stableSort_foldl_pairwise key l [] List.Pairwise.nil (by simp) hl

theorem sortedStore_perm (s : List TweenData) : (sortedStore s).Perm s :=
  stableSort_perm _ s

theorem sortedStore_pairwise (s : List TweenData)
    (hs : s.Pairwise (fun x y => x.id < y.id)) :
    (sortedStore s).Pairwise (specLex s) := by
  have h := stableSort_pairwise (fun d => calculateEffectiveOrder d (maxExplicitOrder s)) s hs
  exact h

/-! ### Well-formedness and coherence of Sequencer states -/

theorem store_addAnimation (st : TimelineState) (m : GsapMethod) (el : Nat)
    (args : List (Option JSVal)) (ord : Option Int) (pos : Option JSVal) :
    (Timeline.addAnimation st m el args ord pos).2.store =
      st.store ++ [⟨m, el, args, ord, pos, st.animationStore.nextId⟩] := rfl

theorem removeFromStore_store_sublist (s : AnimationStore) (p : TweenData → Bool) :
    (s.removeFromStore p).2.store.Sublist s.store := by
  unfold AnimationStore.removeFromStore
  split
  · exact List.eraseP_sublist s.store
  · exact List.Sublist.refl s.store

theorem removeFromStore_nextId (s : AnimationStore) (p : TweenData → Bool) :
    (s.removeFromStore p).2.nextId = s.nextId := by
  unfold AnimationStore.removeFromStore
  split <;> rfl

theorem WF_addAnimation (st : TimelineState) (hwf : WF st) (m : GsapMethod) (el : Nat)
    (args : List (Option JSVal)) (ord : Option Int) (pos : Option JSVal) :
    WF (Timeline.addAnimation st m el args ord pos).2 := by
  rcases hwf with ⟨hpw, hbound⟩
  have hst : (Timeline.addAnimation st m el args ord pos).2.animationStore.store =
      st.store ++ [⟨m, el, args, ord, pos, st.animationStore.nextId⟩] := rfl
  have hnext : (Timeline.addAnimation st m el args ord pos).2.animationStore.nextId =
      st.animationStore.nextId + 1 := rfl
  constructor
  · show List.Pairwise _ (Timeline.addAnimation st m el args ord pos).2.animationStore.store
    rw [hst, List.pairwise_append]
    refine ⟨hpw, List.pairwise_singleton _ _, ?_⟩
    intro a ha b hb
    rw [List.mem_singleton] at hb
    subst hb
    exact hbound a ha
  · intro d hd
    rw [show (Timeline.addAnimation st m el args ord pos).2.store =
      st.store ++ [⟨m, el, args, ord, pos, st.animationStore.nextId⟩] from rfl] at hd
    rw [hnext]
    rcases List.mem_append.mp hd with h | h
    · exact Nat.lt_succ_of_lt (hbound d h)
    · rw [List.mem_singleton] at h
      subst h
      exact Nat.lt_succ_self _

theorem WF_detach (st : TimelineState) (hwf : WF st) (i : Nat) :
    WF (Timeline.detach st i).2 := by
  rcases hwf with ⟨hpw, hbound⟩
  have hsub := removeFromStore_store_sublist st.animationStore (fun item => item.id == i)
  constructor
  · exact hpw.sublist hsub
  · intro d hd
    rw [show (Timeline.detach st i).2.animationStore.nextId =
        st.animationStore.nextId from removeFromStore_nextId _ _]
    exact hbound d (hsub.mem hd)

theorem coherent_addAnimation (st : TimelineState) (m : GsapMethod) (el : Nat)
    (args : List (Option JSVal)) (ord : Option Int) (pos : Option JSVal) :
    Coherent (Timeline.addAnimation st m el args ord pos).2 := rfl

theorem coherent_detach (st : TimelineState) (i : Nat) :
    Coherent (Timeline.detach st i).2 := rfl

theorem coherent_addAll : ∀ (specs : List AddSpec) (st : TimelineState),
    Coherent st → Coherent (addAll st specs).2 := by
  intro specs
  induction specs with
  | nil => intro st h; exact h
  | cons sp rest ih =>
    intro st _
    exact ih _ (coherent_addAnimation ..)

theorem coherent_detachAll : ∀ (ids : List Nat) (st : TimelineState),
    Coherent st → Coherent (detachAll st ids) := by
  intro ids
  induction ids with
  | nil => intro st h; exact h
  | cons i rest ih =>
    intro st _
    exact ih _ (coherent_detach ..)

theorem childOrderMatchesSpec_of_wf (st : TimelineState) (hco : Coherent st)
    (hpw : st.store.Pairwise (fun a b => a.id < b.id)) :
    childOrderMatchesSpec st :=
  ⟨hco, sortedStore_perm st.store, sortedStore_pairwise st.store hpw⟩

/-! ### Lemmas about detach -/

theorem removeFromStore_of_any_false (s : AnimationStore) (p : TweenData → Bool)
    (h : s.store.any p = false) : s.removeFromStore p = (false, s) := by
  unfold AnimationStore.removeFromStore
  rw [if_neg (by simp [h])]

theorem detach_fst (st : TimelineState) (i : Nat) :
    (Timeline.detach st i).1 = st.store.any (fun d => d.id == i) := by
  cases hany : st.animationStore.store.any (fun item => item.id == i) <;>
    simp [Timeline.detach, AnimationStore.removeFromStore, TimelineState.store, hany]

theorem detach_of_not_present (st : TimelineState) (i : Nat)
    (h : st.store.any (fun d => d.id == i) = false) (hco : Coherent st) :
    Timeline.detach st i = (false, st) := by
  unfold Timeline.detach
  rw [removeFromStore_of_any_false _ _ h]
  cases st with
  | mk a c =>
    simp only [Prod.mk.injEq, TimelineState.mk.injEq, true_and]
    exact hco.symm

theorem eraseP_id_no_match (i : Nat) : ∀ (l : List TweenData),
    l.Pairwise (fun a b => a.id < b.id) →
    (l.eraseP (fun d => d.id == i)).any (fun d => d.id == i) = false := by
  intro l
  induction l with
  | nil => intro _; rfl
  | cons d t ih =>
    intro hpw
    rcases List.pairwise_cons.mp hpw with ⟨hd, ht⟩
    by_cases hdi : (d.id == i) = true
    · rw [show (d :: t).eraseP (fun d => d.id == i) = t from
        List.eraseP_cons_of_pos hdi]
      rw [List.any_eq_false]
      intro x hx
      have hlt := hd x hx
      have hde : d.id = i := by simpa using hdi
      simp only [beq_iff_eq]
      omega
    · rw [show (d :: t).eraseP (fun d => d.id == i) =
          d :: t.eraseP (fun d => d.id == i) from
        List.eraseP_cons_of_neg (by simpa using hdi)]
      rw [List.any_cons]
      simp only [hdi, Bool.false_or]
      exact ih ht

theorem detach_no_match (st : TimelineState) (i : Nat)
    (hpw : st.store.Pairwise (fun a b => a.id < b.id)) :
    (Timeline.detach st i).2.store.any (fun d => d.id == i) = false := by
  cases hany : st.animationStore.store.any (fun item => item.id == i) with
  | false =>
    simp only [Timeline.detach, AnimationStore.removeFromStore, hany,
      Bool.false_eq_true, if_false]
  | true =>
    simp only [Timeline.detach, AnimationStore.removeFromStore, hany, if_true]
    exact eraseP_id_no_match i st.animationStore.store hpw

/-! ### Lemmas about the round trip -/

theorem addAll_ids : ∀ (specs : List AddSpec) (st : TimelineState),
    (addAll st specs).2.store.map (fun d => d.id) =
      st.store.map (fun d => d.id) ++ (addAll st specs).1 := by
  intro specs
  induction specs with
  | nil => intro st; simp [addAll]
  | cons sp rest ih =>
    intro st
    rw [addAll]
    rw [ih]
    rw [show (Timeline.addAnimation st sp.gsapMethod sp.element sp.args sp.order
        sp.position).2.store =
      st.store ++ [⟨sp.gsapMethod, sp.element, sp.args, sp.order, sp.position,
        st.animationStore.nextId⟩] from rfl]
    simp only [List.map_append, List.map_cons, List.map_nil, List.append_assoc,
      List.singleton_append]
    rfl

theorem map_id_eraseP (i : Nat) : ∀ (l : List TweenData),
    (l.eraseP (fun d => d.id == i)).map (fun d => d.id) =
      (l.map (fun d => d.id)).erase i := by
  intro l
  induction l with
  | nil => rfl
  | cons d t ih =>
    by_cases hdi : (d.id == i) = true
    · rw [show (d :: t).eraseP (fun d => d.id == i) = t from
        List.eraseP_cons_of_pos hdi]
      rw [List.map_cons, List.erase_cons, if_pos hdi]
    · rw [show (d :: t).eraseP (fun d => d.id == i) =
          d :: t.eraseP (fun d => d.id == i) from
        List.eraseP_cons_of_neg (by simpa using hdi)]
      rw [List.map_cons, List.map_cons, List.erase_cons, if_neg (by simpa using hdi), ih]

theorem detach_store_map_id (st : TimelineState) (i : Nat)
    (h : i ∈ st.store.map (fun d => d.id)) :
    (Timeline.detach st i).2.store.map (fun d => d.id) =
      (st.store.map (fun d => d.id)).erase i := by
  have hany : st.animationStore.store.any (fun item => item.id == i) = true := by
    rcases List.mem_map.mp h with ⟨d, hd, hdi⟩
    exact List.any_eq_true.mpr ⟨d, hd, by simp [hdi]⟩
  simp only [Timeline.detach, AnimationStore.removeFromStore, hany, if_true]
  exact map_id_eraseP i st.animationStore.store

theorem detachAll_store_nil : ∀ (ids : List Nat) (st : TimelineState),
    ids.Perm (st.store.map (fun d => d.id)) → (detachAll st ids).store = [] := by
  intro ids
  induction ids with
  | nil =>
    intro st hperm
    have h : st.store.map (fun d => d.id) = [] := (List.perm_nil.mp hperm.symm)
    rw [detachAll]
    exact List.map_eq_nil_iff.mp h
  | cons i rest ih =>
    intro st hperm
    have hmem : i ∈ st.store.map (fun d => d.id) :=
      hperm.mem_iff.mp (List.mem_cons_self i rest)
    rw [detachAll]
    apply ih
    rw [detach_store_map_id st i hmem]
    have h2 := hperm.erase i
    rw [List.erase_cons_head] at h2
    exact h2

/-! ### Lemmas about the maximum explicit order -/

theorem moFold_some_le : ∀ (s : List TweenData) (m : Int),
    ∃ m2, s.foldl moStep (some m) = some m2 ∧ m ≤ m2 := by
  intro s
  induction s with
  | nil => intro m; exact ⟨m, rfl, le_refl m⟩
  | cons d t ih =>
    intro m
    rw [List.foldl_cons]
    cases hord : d.order with
    | none =>
      rw [show moStep (some m) d = some m by unfold moStep; rw [hord]]
      exact ih m
    | some o =>
      rw [show moStep (some m) d = some (max m o) by unfold moStep; rw [hord]]
      rcases ih (max m o) with ⟨m2, h1, h2⟩
      exact ⟨m2, h1, le_trans (le_max_left m o) h2⟩

theorem moFold_mem_le : ∀ (s : List TweenData) (acc : Option Int) (b : TweenData)
    (ob : Int), b ∈ s → b.order = some ob →
    ∃ m2, s.foldl moStep acc = some m2 ∧ ob ≤ m2 := by
  intro s
  induction s with
  | nil => intro acc b ob hb _; exact absurd hb (List.not_mem_nil b)
  | cons d t ih =>
    intro acc b ob hb hord
    rw [List.foldl_cons]
    rcases List.mem_cons.mp hb with rfl | hbt
    · cases acc with
      | none =>
        rw [show moStep none b = some ob by unfold moStep; rw [hord]]
        exact moFold_some_le t ob
      | some m =>
        rw [show moStep (some m) b = some (max m ob) by unfold moStep; rw [hord]]
        rcases moFold_some_le t (max m ob) with ⟨m2, h1, h2⟩
        exact ⟨m2, h1, le_trans (le_max_right m ob) h2⟩
    · exact ih (moStep acc d) b ob hbt hord

theorem maxExplicitOrder_mem_le (s : List TweenData) (b : TweenData) (ob : Int)
    (hb : b ∈ s) (hord : b.order = some ob) :
    ∃ m, maxExplicitOrder s = some m ∧ ob ≤ m :=
  moFold_mem_le s none b ob hb hord

theorem moFold_some_eq : ∀ (s : List TweenData) (m : Int),
    s.foldl moStep (some m) =
      some ((s.filterMap (fun d => d.order)).foldl max m) := by
  intro s
  induction s with
  | nil => intro m; rfl
  | cons d t ih =>
    intro m
    rw [List.foldl_cons]
    cases hord : d.order with
    | none =>
      rw [show moStep (some m) d = some m by unfold moStep; rw [hord]]
      rw [ih, List.filterMap_cons, hord]
    | some o =>
      rw [show moStep (some m) d = some (max m o) by unfold moStep; rw [hord]]
      rw [ih, List.filterMap_cons, hord]
      rfl

theorem maxExplicitOrder_eq_max : ∀ (s : List TweenData),
    maxExplicitOrder s = (s.filterMap (fun d => d.order)).max? := by
  intro s
  unfold maxExplicitOrder
  induction s with
  | nil => rfl
  | cons d t ih =>
    rw [List.foldl_cons]
    cases hord : d.order with
    | none =>
      rw [show moStep none d = none by unfold moStep; rw [hord]]
      rw [ih, List.filterMap_cons, hord]
    | some o =>
      rw [show moStep none d = some o by unfold moStep; rw [hord]]
      rw [moFold_some_eq, List.filterMap_cons, hord]
      rfl

/-! ### Lemmas about the generated id trace -/

theorem runStoreOps_nextId_add (s : AnimationStore) (item : TweenData) :
    (s.addToStore item).nextId = s.nextId := rfl

theorem runStoreOps_trace : ∀ (ops : List StoreOp) (s : AnimationStore),
    (runStoreOps s ops).2 = (List.range (countGen ops)).map (fun k => s.nextId + k) := by
  intro ops
  induction ops with
  | nil => intro s; rfl
  | cons op rest ih =>
    intro s
    cases op with
    | gen =>
      rw [runStoreOps, ih]
      rw [show countGen (StoreOp.gen :: rest) = countGen rest + 1 from rfl]
      rw [List.range_succ_eq_map]
      rw [List.map_cons, List.map_map]
      refine congrArg₂ List.cons (by rfl) ?_
      apply List.map_congr_left
      intro k _
      show s.generateId.2.nextId + k = s.nextId + Nat.succ k
      rw [show s.generateId.2.nextId = s.nextId + 1 from rfl]
      omega
    | add item =>
      rw [runStoreOps, ih]
      rfl
    | removeById i =>
      rw [runStoreOps, ih]
      rw [removeFromStore_nextId]
      rfl
    | clear =>
      rw [runStoreOps, ih]
      rfl

/-! ### Position rule of the rebuild -/

theorem mkChildEntry_position (d : TweenData) :
    (mkChildEntry d).position = specifiedInsertPosition d.position := by
  unfold mkChildEntry specifiedInsertPosition
  cases hp : d.position with
  | none => simp
  | some v =>
    by_cases hv : v = JSVal.str ""
    · subst hv; simp
    · simp [hv]

/-! ### Claim theorems -/

/-- C1 (counterexample): the claim computes the effective order of an
implicit descriptor as (maximum explicit order, or 0 when none exists)
+ 1 + id; on a store holding a single implicit descriptor with id 0 the
code yields 0 while the claim's formula yields 0 + 1 + 0 = 1. -/
theorem effectiveOrder_claimed_counterexample :
    ¬ (calculateEffectiveOrder ⟨GsapMethod.to, 0, [], none, none, 0⟩
        (maxExplicitOrder [⟨GsapMethod.to, 0, [], none, none, 0⟩]) =
      (maxExplicitOrder [⟨GsapMethod.to, 0, [], none, none, 0⟩]).getD 0 + 1 + (0 : Int)) := by
  decide

/-- C1 (amended): a descriptor with an explicit order has that value as
its effective order; a descriptor without one has effective order
(maximum explicit order) + 1 + id when some explicit order exists in the
store, and plain id (offset 0, not 0 + 1) when none exists. -/
theorem effectiveOrder_formula (s : List TweenData) (d : TweenData) :
    calculateEffectiveOrder d (maxExplicitOrder s) =
      match d.order with
      | some o => o
      | none =>
        match (s.filterMap (fun x => x.order)).max? with
        | some m => m + 1 + (d.id : Int)
        | none => (d.id : Int) := by
  cases hord : d.order with
  | some o => simp [calculateEffectiveOrder, hord]
  | none =>
    simp only [calculateEffectiveOrder, hord, maxExplicitOrder_eq_max s]
    cases hmax : (s.filterMap (fun x => x.order)).max? with
    | some m => simp
    | none => simp

/-- C2: after every `addAnimation` call and after every invocation of a
returned detach callback, the underlying timeline's children equal the
Store's descriptors sorted ascending by effective order with ties broken
by ascending id; in particular declaring three animations with explicit
orders 3, 1, 2 in that sequence yields underlying child order
[order-1 item, order-2 item, order-3 item]. -/
theorem children_match_spec_order (st : TimelineState) (hwf : WF st) (m : GsapMethod)
    (el : Nat) (args : List (Option JSVal)) (ord : Option Int) (pos : Option JSVal)
    (i : Nat) :
    childOrderMatchesSpec (Timeline.addAnimation st m el args ord pos).2 ∧
    childOrderMatchesSpec (Timeline.detach st i).2 ∧
    ((addAll (freshTimeline 0)
        [⟨GsapMethod.to, 0, [some (JSVal.obj 0)], some 3, none⟩,
         ⟨GsapMethod.to, 1, [some (JSVal.obj 1)], some 1, none⟩,
         ⟨GsapMethod.to, 2, [some (JSVal.obj 2)], some 2, none⟩]).2.children.map
      (fun c => c.tween.element)) = [1, 2, 0] := by
  refine ⟨?_, ?_, by decide⟩
  · exact childOrderMatchesSpec_of_wf _ (coherent_addAnimation ..)
      (WF_addAnimation st hwf m el args ord pos).1
  · exact childOrderMatchesSpec_of_wf _ (coherent_detach ..) (WF_detach st hwf i).1

/-- C2 witness: the invariant instantiated on a fresh Sequencer for one
`addAnimation` call and one detach invocation, plus the 3-1-2 scenario. -/
theorem children_match_spec_order_witness :
    childOrderMatchesSpec (Timeline.addAnimation (freshTimeline 0) GsapMethod.to 5
      [some (JSVal.obj 0)] (some 2) none).2 ∧
    childOrderMatchesSpec (Timeline.detach (freshTimeline 0) 0).2 ∧
    ((addAll (freshTimeline 0)
        [⟨GsapMethod.to, 0, [some (JSVal.obj 0)], some 3, none⟩,
         ⟨GsapMethod.to, 1, [some (JSVal.obj 1)], some 1, none⟩,
         ⟨GsapMethod.to, 2, [some (JSVal.obj 2)], some 2, none⟩]).2.children.map
      (fun c => c.tween.element)) = [1, 2, 0] :=
  children_match_spec_order (freshTimeline 0)
    ⟨List.Pairwise.nil, fun d hd => absurd hd (List.not_mem_nil d)⟩
    GsapMethod.to 5 [some (JSVal.obj 0)] (some 2) none 0

/-- C3 (code divergence evidence): a two-entry timeline-bound chain whose
initiating call carries the non-empty position "start" registers its
first entry with the Sequencer with no position at all — the
`animations.length === 1` guard skips every multi-entry chain, so the
parsed initiating position is dropped. -/
theorem initiating_position_dropped_on_chain :
    ((createTimelineAttach GsapMethod.to [some (JSVal.obj 0)]
        (PosOrOpts.value (some (JSVal.str "start"))) none).chain GsapMethod.to
        [some (JSVal.obj 1)] (PosOrOpts.value none) none).position =
      some (JSVal.str "start") ∧
    ((attachTimelineChain
        ((createTimelineAttach GsapMethod.to [some (JSVal.obj 0)]
          (PosOrOpts.value (some (JSVal.str "start"))) none).chain GsapMethod.to
          [some (JSVal.obj 1)] (PosOrOpts.value none) none)
        7 (freshTimeline 0)).2.store.map (fun d => d.position)) = [none, none] := by
  decide

/-- C4 (counterexample): in a chain initiated by `to`, a chained `set`
entry carrying the trailing position "x" does have that trailing value
stripped from its args and used as its position — the `set` exception in
the code tests the initiating call's method name, not the entry's own
operation, refuting "a `set` operation never receives this treatment". -/
theorem set_entry_stripped_counterexample :
    (⟨GsapMethod.set, [some (JSVal.obj 1), some (JSVal.str "x")], none⟩ : Animation) ∈
      ((createTimelineAttach GsapMethod.to [some (JSVal.obj 0)] (PosOrOpts.value none)
        none).chain GsapMethod.set [some (JSVal.obj 1)]
        (PosOrOpts.value (some (JSVal.str "x"))) none).animations.tail ∧
    resolveEntry
        ((createTimelineAttach GsapMethod.to [some (JSVal.obj 0)] (PosOrOpts.value none)
          none).chain GsapMethod.set [some (JSVal.obj 1)]
          (PosOrOpts.value (some (JSVal.str "x"))) none)
        ⟨GsapMethod.set, [some (JSVal.obj 1), some (JSVal.str "x")], none⟩ =
      ([some (JSVal.obj 1)], some (JSVal.str "x")) := by
  decide

/-- C4 (amended): every non-initial chained entry whose args list is
longer than the initiating call's base args and ends in a string or
number has that trailing value removed from its args and used as its
position precisely when the INITIATING call's operation is not `set`;
when the initiating call is `set`, no entry is stripped, regardless of
the entry's own operation. -/
theorem chained_entry_position_stripping (cs : ChainState) (a : Animation)
    (ha : a ∈ cs.animations.tail)
    (hlong : cs.baseArgs.length < a.args.length)
    (hlast : lastIsStrOrNum a.args = true) :
    resolveEntry cs a =
      if cs.baseMethodName ≠ GsapMethod.set then (a.args.dropLast, a.args.getLast?.join)
      else (a.args, none) := by
  have hlen : cs.animations.length ≠ 1 := by
    cases hm : cs.animations with
    | nil =>
      rw [hm] at ha
      exact absurd ha (List.not_mem_nil a)
    | cons x t =>
      rw [hm] at ha
      simp only [List.tail_cons] at ha
      intro h1
      rw [List.length_cons] at h1
      have ht : t.length = 0 := by omega
      rw [List.eq_nil_of_length_eq_zero ht] at ha
      exact absurd ha (List.not_mem_nil a)
  unfold resolveEntry
  rw [if_neg (fun hcontra => hlen hcontra.1)]
  rw [if_pos ⟨hlong, hlast⟩]

/-- C4 witness: in a chain initiated by `set`, the chained `to` entry
with trailing position "y" is left untouched with no position, exactly as
the amended claim predicts for a `set`-initiated chain. -/
theorem chained_entry_position_stripping_witness :
    resolveEntry
        ((createTimelineAttach GsapMethod.set [some (JSVal.obj 0)] (PosOrOpts.value none)
          none).chain GsapMethod.to [some (JSVal.obj 1)]
          (PosOrOpts.value (some (JSVal.str "y"))) none)
        ⟨GsapMethod.to, [some (JSVal.obj 1), some (JSVal.str "y")], none⟩ =
      ([some (JSVal.obj 1), some (JSVal.str "y")], none) := by
  have h := chained_entry_position_stripping
    ((createTimelineAttach GsapMethod.set [some (JSVal.obj 0)] (PosOrOpts.value none)
      none).chain GsapMethod.to [some (JSVal.obj 1)]
      (PosOrOpts.value (some (JSVal.str "y"))) none)
    ⟨GsapMethod.to, [some (JSVal.obj 1), some (JSVal.str "y")], none⟩
    (by decide) (by decide) (by decide)
  simpa using h

/-- C5: for a descriptor added via `addAnimation`, the first invocation
of the returned detach callback removes it (removal reports true) and a
second invocation is a no-op: the predicate-based removal returns false
and the state — store contents, store size and the rebuilt timeline
children — is exactly the state after the first invocation. -/
theorem detach_twice_noop (st : TimelineState) (hwf : WF st) (m : GsapMethod) (el : Nat)
    (args : List (Option JSVal)) (ord : Option Int) (pos : Option JSVal) :
    (Timeline.detach (Timeline.addAnimation st m el args ord pos).2
        (Timeline.addAnimation st m el args ord pos).1).1 = true ∧
    Timeline.detach
        (Timeline.detach (Timeline.addAnimation st m el args ord pos).2
          (Timeline.addAnimation st m el args ord pos).1).2
        (Timeline.addAnimation st m el args ord pos).1 =
      (false,
        (Timeline.detach (Timeline.addAnimation st m el args ord pos).2
          (Timeline.addAnimation st m el args ord pos).1).2) := by
  constructor
  · rw [detach_fst]
    refine List.any_eq_true.mpr
      ⟨⟨m, el, args, ord, pos, st.animationStore.nextId⟩, ?_,
        by exact beq_self_eq_true st.animationStore.nextId⟩
    rw [store_addAnimation]
    exact List.mem_append_right _ (List.mem_singleton_self _)
  · apply detach_of_not_present
    · apply detach_no_match
      exact (WF_addAnimation st hwf m el args ord pos).1
    · exact coherent_detach ..

/-- C5 witness: the double-detach no-op on a fresh Sequencer after one
`addAnimation` call. -/
theorem detach_twice_noop_witness :
    (Timeline.detach (Timeline.addAnimation (freshTimeline 0) GsapMethod.to 3 [] none
        none).2 (Timeline.addAnimation (freshTimeline 0) GsapMethod.to 3 [] none
        none).1).1 = true ∧
    Timeline.detach
        (Timeline.detach (Timeline.addAnimation (freshTimeline 0) GsapMethod.to 3 [] none
          none).2 (Timeline.addAnimation (freshTimeline 0) GsapMethod.to 3 [] none
          none).1).2
        (Timeline.addAnimation (freshTimeline 0) GsapMethod.to 3 [] none none).1 =
      (false,
        (Timeline.detach (Timeline.addAnimation (freshTimeline 0) GsapMethod.to 3 [] none
          none).2 (Timeline.addAnimation (freshTimeline 0) GsapMethod.to 3 [] none
          none).1).2) :=
  detach_twice_noop (freshTimeline 0)
    ⟨List.Pairwise.nil, fun d hd => absurd hd (List.not_mem_nil d)⟩
    GsapMethod.to 3 [] none none

/-- C6: in every store containing at least one explicit order (negative
ones included), every descriptor without an explicit order has an
effective order strictly greater than that of every descriptor with one,
so implicit descriptors always sort after all explicit ones. -/
theorem implicit_after_explicit (s : List TweenData) (a b : TweenData)
    (_ha : a ∈ s) (hb : b ∈ s) (hao : a.order = none) (ob : Int)
    (hbo : b.order = some ob) :
    calculateEffectiveOrder b (maxExplicitOrder s) <
      calculateEffectiveOrder a (maxExplicitOrder s) := by
  rcases maxExplicitOrder_mem_le s b ob hb hbo with ⟨mx, hmx, hle⟩
  rw [show calculateEffectiveOrder b (maxExplicitOrder s) = ob by
    simp [calculateEffectiveOrder, hbo]]
  rw [show calculateEffectiveOrder a (maxExplicitOrder s) = mx + 1 + (a.id : Int) by
    simp [calculateEffectiveOrder, hao, hmx]]
  have hid : (0 : Int) ≤ (a.id : Int) := Int.natCast_nonneg a.id
  omega

/-- C6 witness: with one implicit descriptor (id 1) and one explicit
descriptor of negative order -5 (id 0), the implicit effective order is
strictly greater. -/
theorem implicit_after_explicit_witness :
    calculateEffectiveOrder ⟨GsapMethod.to, 1, [], some (-5), none, 0⟩
        (maxExplicitOrder [⟨GsapMethod.to, 0, [], none, none, 1⟩,
          ⟨GsapMethod.to, 1, [], some (-5), none, 0⟩]) <
      calculateEffectiveOrder ⟨GsapMethod.to, 0, [], none, none, 1⟩
        (maxExplicitOrder [⟨GsapMethod.to, 0, [], none, none, 1⟩,
          ⟨GsapMethod.to, 1, [], some (-5), none, 0⟩]) :=
  implicit_after_explicit
    [⟨GsapMethod.to, 0, [], none, none, 1⟩, ⟨GsapMethod.to, 1, [], some (-5), none, 0⟩]
    ⟨GsapMethod.to, 0, [], none, none, 1⟩ ⟨GsapMethod.to, 1, [], some (-5), none, 0⟩
    (by decide) (by decide) rfl (-5) rfl

/-- C7: over every sequence of store operations (including `clearStore`)
starting from the initial store, the values returned by `generateId` are
exactly 0, 1, 2, ... in call order — each strictly greater than all
previously returned ones and never reused, since `clearStore` leaves the
counter untouched. -/
theorem generateId_trace (ops : List StoreOp) :
    (runStoreOps initialAnimationStore ops).2 = List.range (countGen ops) ∧
    (runStoreOps initialAnimationStore ops).2.Pairwise (fun i j => i < j) := by
  have h := runStoreOps_trace ops initialAnimationStore
  have h2 : (runStoreOps initialAnimationStore ops).2 = List.range (countGen ops) := by
    rw [h]
    have : (fun k => initialAnimationStore.nextId + k) = fun k : Nat => k := by
      funext k
      show 0 + k = k
      omega
    rw [this, List.map_id']
  exact ⟨h2, h2 ▸ List.pairwise_lt_range _⟩

/-- C8: adding N descriptors to a Sequencer via `addAnimation` and then
invoking all N returned detach callbacks, in any order, leaves the store
empty and the underlying timeline with no children. -/
theorem roundTrip_empties (n : Nat) (specs : List AddSpec) (ids : List Nat)
    (hperm : ids.Perm (addAll (freshTimeline n) specs).1) :
    (detachAll (addAll (freshTimeline n) specs).2 ids).store = [] ∧
    (detachAll (addAll (freshTimeline n) specs).2 ids).children = [] := by
  have hids : (addAll (freshTimeline n) specs).2.store.map (fun d => d.id) =
      (addAll (freshTimeline n) specs).1 := by
    have h := addAll_ids specs (freshTimeline n)
    simpa using h
  have hstore : (detachAll (addAll (freshTimeline n) specs).2 ids).store = [] := by
    apply detachAll_store_nil
    rw [hids]
    exact hperm
  refine ⟨hstore, ?_⟩
  have hco : Coherent (detachAll (addAll (freshTimeline n) specs).2 ids) :=
    coherent_detachAll ids _ (coherent_addAll specs (freshTimeline n) rfl)
  have hco2 : (detachAll (addAll (freshTimeline n) specs).2 ids).children =
      rebuildTimeline (detachAll (addAll (freshTimeline n) specs).2 ids).store := hco
  rw [hco2, hstore]
  rfl

/-- C8 witness: two descriptors added then detached in reversed order on
a fresh Sequencer leave an empty store and an empty timeline. -/
theorem roundTrip_empties_witness :
    (detachAll (addAll (freshTimeline 0) [⟨GsapMethod.to, 0, [], none, none⟩,
        ⟨GsapMethod.from_, 1, [], some 5, none⟩]).2 [1, 0]).store = [] ∧
    (detachAll (addAll (freshTimeline 0) [⟨GsapMethod.to, 0, [], none, none⟩,
        ⟨GsapMethod.from_, 1, [], some 5, none⟩]).2 [1, 0]).children = [] :=
  roundTrip_empties 0
    [⟨GsapMethod.to, 0, [], none, none⟩, ⟨GsapMethod.from_, 1, [], some 5, none⟩]
    [1, 0] (by decide)

/-- C9: a rebuild over the empty store yields zero children (and, being a
total function, cannot fault), and every descriptor's tween is inserted
with exactly the position the spec describes: its stored position when
present and not the empty string, the natural append point otherwise. -/
theorem rebuild_position_rule :
    rebuildTimeline [] = [] ∧
    ∀ (s : List TweenData) (d : TweenData), d ∈ s →
      ∃ c ∈ rebuildTimeline s,
        c.tween = ⟨d.gsapMethod, d.element, d.args⟩ ∧
        c.position = specifiedInsertPosition d.position := by
  refine ⟨rfl, ?_⟩
  intro s d hd
  have hmem : d ∈ sortedStore s := (sortedStore_perm s).mem_iff.mpr hd
  exact ⟨mkChildEntry d, List.mem_map_of_mem mkChildEntry hmem, rfl,
    mkChildEntry_position d⟩

/-- C9 witness: the position rule at a store holding one descriptor with
position "lbl". -/
theorem rebuild_position_rule_witness :
    ∃ c ∈ rebuildTimeline [⟨GsapMethod.to, 4, [some (JSVal.obj 0)], none,
        some (JSVal.str "lbl"), 0⟩],
      c.tween = ⟨GsapMethod.to, 4, [some (JSVal.obj 0)]⟩ ∧
      c.position = specifiedInsertPosition (some (JSVal.str "lbl")) := by
  have h := rebuild_position_rule.2
    [⟨GsapMethod.to, 4, [some (JSVal.obj 0)], none, some (JSVal.str "lbl"), 0⟩]
    ⟨GsapMethod.to, 4, [some (JSVal.obj 0)], none, some (JSVal.str "lbl"), 0⟩
    (List.mem_singleton_self _)
  exact h

/-- C10: the standalone builder records every chained call's args
verbatim with no order field and no parsing, and the standalone attach
forwards them unchanged to the engine method right after the element. -/
theorem standalone_verbatim (anims : List Animation) (methodName : GsapMethod)
    (args : List (Option JSVal)) (el : Nat) :
    standaloneChainCall anims methodName args =
      anims ++ [⟨methodName, args, none⟩] ∧
    standaloneAttach (standaloneChainCall anims methodName args) el =
      standaloneAttach anims el ++ [⟨methodName, el, args⟩] := by
  refine ⟨rfl, ?_⟩
  unfold standaloneAttach standaloneChainCall
  rw [List.map_append]
  rfl

end AttachGsap
